import Mathlib

/-!
Verification of `tools/make-standard-json.py`, the standard-JSON
reconstruction script.

Modelling conventions (shallow embedding):
* Python strings are modelled as `List Char` (`Str`); `s.startswith(t)` is
  `startswith s t`, `s[len(t):]` is `List.drop t.length s`, `a + b` is `a ++ b`.
* Python dicts are modelled as insertion-ordered association lists with
  lookup on the first binding (`alookup`); `d[k] = v` on a fresh key appends
  the binding at the end, exactly as dict insertion order does.
* A JSON value is the inductive `Json`; `json.dumps` (default separators,
  `ensure_ascii=False`) is `dumps`, `json.loads` is `loads` (a recursive
  descent parser with a fuel bound), and `json.dumps(..., indent=2)` is
  `dumpsIndent`.  Numbers are integers, which covers every value this
  program handles.
* File reads are abstracted by a lookup `fs : Str → Option Str`; a raised
  exception is `Except.error msg`; the written output file is the payload of
  `Except.ok`, so an aborted run writes nothing.
-/

namespace StdJson

/-- Python strings, modelled as their character sequences. -/
abbrev Str := List Char

/-- Shorthand turning a Lean string literal into the `Str` model. -/
def str (s : String) : Str := s.data

/-- The JSON whitespace characters (also those skipped by Python's
`json.loads` between tokens): space, tab, newline, carriage return. -/
def isWsChar (c : Char) : Bool :=
  c.toNat = 32 || c.toNat = 9 || c.toNat = 10 || c.toNat = 13

/-- Python `str.strip()` / `\s` whitespace: space, tab, newline, carriage
return, vertical tab, form feed. -/
def isPyWs (c : Char) : Bool :=
  c.toNat = 32 || c.toNat = 9 || c.toNat = 10 || c.toNat = 13 ||
  c.toNat = 11 || c.toNat = 12

/-- An ASCII decimal digit. -/
def isDigitC (c : Char) : Bool := 48 ≤ c.toNat && c.toNat ≤ 57

/-- Drop leading JSON whitespace. -/
def skipWs : Str → Str
  | [] => []
  | c :: cs => if isWsChar c then skipWs cs else c :: cs

/-- JSON values as this program sees them: `metadata` records, settings
objects, source maps.  Numbers are integers (the only numeric values in
compiler metadata handled by the script). -/
inductive Json where
  | null : Json
  | bool : Bool → Json
  | num : Int → Json
  | str : Str → Json
  | arr : List Json → Json
  | obj : List (Str × Json) → Json

/-- Lookup in an insertion-ordered association list (Python dict access
`d[k]`, first binding wins; dicts never hold duplicate keys). -/
def alookup {α β : Type} [DecidableEq α] : List (α × β) → α → Option β
  | [], _ => none
  | (k, v) :: rest, key => if k = key then some v else alookup rest key

/-- Python `data[k]` on a parsed JSON value: field access on an object. -/
def getItem (j : Json) (k : Str) : Option Json :=
  match j with
  | Json.obj fields => alookup fields k
  | _ => none

/-- The decimal digit characters, for printing numbers. -/
def digitChar : Nat → Char
  | 0 => '0' | 1 => '1' | 2 => '2' | 3 => '3' | 4 => '4'
  | 5 => '5' | 6 => '6' | 7 => '7' | 8 => '8' | _ => '9'

/-- Big-endian decimal digits of a natural number, with enough fuel;
written with explicit fuel so that it evaluates by kernel reduction. -/
def natCharsAux : Nat → Nat → Str → Str
  | 0, _, acc => acc
  | fuel + 1, n, acc =>
    if n < 10 then digitChar n :: acc
    else natCharsAux fuel (n / 10) (digitChar (n % 10) :: acc)

/-- Decimal representation of a natural number (Python `str(n)`). -/
def natChars (n : Nat) : Str := natCharsAux (n + 1) n []

/-- Decimal representation of an integer (Python `str(n)`). -/
def intChars (n : Int) : Str :=
  if n < 0 then '-' :: natChars n.natAbs else natChars n.toNat

/-- The lowercase hexadecimal digit characters. -/
def hexChar : Nat → Char
  | 0 => '0' | 1 => '1' | 2 => '2' | 3 => '3' | 4 => '4' | 5 => '5'
  | 6 => '6' | 7 => '7' | 8 => '8' | 9 => '9' | 10 => 'a' | 11 => 'b'
  | 12 => 'c' | 13 => 'd' | 14 => 'e' | _ => 'f'

/-- How `json.dumps(..., ensure_ascii=False)` emits one string character:
quote, backslash and the short control escapes get a backslash escape, the
remaining control characters a `\u00XX` escape, and every other character —
including all non-ASCII — is emitted literally. -/
def escapeChar (c : Char) : Str :=
  if c = '"' then ['\\', '"']
  else if c = '\\' then ['\\', '\\']
  else if c = '\n' then ['\\', 'n']
  else if c = '\t' then ['\\', 't']
  else if c = '\r' then ['\\', 'r']
  else if c.toNat = 8 then ['\\', 'b']
  else if c.toNat = 12 then ['\\', 'f']
  else if c.toNat < 32 then
    ['\\', 'u', '0', '0', hexChar (c.toNat / 16), hexChar (c.toNat % 16)]
  else [c]

/-- The body of a serialized JSON string (without the surrounding quotes). -/
def encStrBody : Str → Str
  | [] => []
  | c :: cs => escapeChar c ++ encStrBody cs

mutual

/-- `json.dumps` with the default separators `", "` and `": "` and
`ensure_ascii=False`, producing the serialized character sequence. -/
def encVal : Json → Str
  | Json.null => ['n', 'u', 'l', 'l']
  | Json.bool true => ['t', 'r', 'u', 'e']
  | Json.bool false => ['f', 'a', 'l', 's', 'e']
  | Json.num n => intChars n
  | Json.str s => '"' :: (encStrBody s ++ ['"'])
  | Json.arr [] => ['[', ']']
  | Json.arr (x :: xs) => '[' :: (encVal x ++ encElemsRest xs)
  | Json.obj [] => ['{', '}']
  | Json.obj ((k, v) :: fs) =>
      '{' :: '"' :: (encStrBody k ++ '"' :: ':' :: ' ' :: (encVal v ++ encFieldsRest fs))
termination_by structural v => v

/-- Remaining array elements, each preceded by `", "`, closed by `]`. -/
def encElemsRest : List Json → Str
  | [] => [']']
  | x :: xs => ',' :: ' ' :: (encVal x ++ encElemsRest xs)
termination_by structural l => l

/-- Remaining object members, each preceded by `", "`, closed by `}`. -/
def encFieldsRest : List (Str × Json) → Str
  | [] => ['}']
  | (k, v) :: fs =>
      ',' :: ' ' :: '"' :: (encStrBody k ++ '"' :: ':' :: ' ' :: (encVal v ++ encFieldsRest fs))
termination_by structural l => l

end

/-- `json.dumps(value)` as called by `sanitize_settings` and
`load_artifact`'s producers. -/
def dumps (v : Json) : Str := encVal v

/-- Numeric value of one hexadecimal digit character, if it is one. -/
def hexVal (c : Char) : Option Nat :=
  if 48 ≤ c.toNat ∧ c.toNat ≤ 57 then some (c.toNat - 48)
  else if 97 ≤ c.toNat ∧ c.toNat ≤ 102 then some (c.toNat - 87)
  else if 65 ≤ c.toNat ∧ c.toNat ≤ 70 then some (c.toNat - 55)
  else none

/-- Parse the body of a JSON string up to the closing quote, decoding
escapes; returns the decoded characters and the input after the quote. -/
def parseStrBody (cs0 : Str) : Option (Str × Str) :=
  match cs0 with
  | [] => none
  | c :: rest =>
    if c = '"' then some ([], rest)
    else if c = '\\' then
      match rest with
      | [] => none
      | e :: rest2 =>
        if e = '"' then (parseStrBody rest2).map (fun p => ('"' :: p.1, p.2))
        else if e = '\\' then (parseStrBody rest2).map (fun p => ('\\' :: p.1, p.2))
        else if e = '/' then (parseStrBody rest2).map (fun p => ('/' :: p.1, p.2))
        else if e = 'n' then (parseStrBody rest2).map (fun p => ('\n' :: p.1, p.2))
        else if e = 't' then (parseStrBody rest2).map (fun p => ('\t' :: p.1, p.2))
        else if e = 'r' then (parseStrBody rest2).map (fun p => ('\r' :: p.1, p.2))
        else if e = 'b' then (parseStrBody rest2).map (fun p => (Char.ofNat 8 :: p.1, p.2))
        else if e = 'f' then (parseStrBody rest2).map (fun p => (Char.ofNat 12 :: p.1, p.2))
        else if e = 'u' then
          match rest2 with
          | h1 :: h2 :: h3 :: h4 :: rest3 =>
            match hexVal h1, hexVal h2, hexVal h3, hexVal h4 with
            | some a, some b, some c3, some d =>
              (parseStrBody rest3).map
                (fun p => (Char.ofNat (((a * 16 + b) * 16 + c3) * 16 + d) :: p.1, p.2))
            | _, _, _, _ => none
          | _ => none
        else none
    else (parseStrBody rest).map (fun p => (c :: p.1, p.2))
termination_by structural cs0

/-- Consume a run of decimal digits, accumulating their value. -/
def parseDigits : Str → Nat → Nat × Str
  | [], acc => (acc, [])
  | c :: rest, acc =>
    if isDigitC c then parseDigits rest (acc * 10 + (c.toNat - 48))
    else (acc, c :: rest)

mutual

/-- Recursive-descent JSON value parser (the core of `json.loads`), with a
fuel bound on recursion depth; returns the value and the remaining input. -/
def parseVal : Nat → Str → Option (Json × Str)
  | 0, _ => none
  | fuel + 1, cs =>
    match skipWs cs with
    | [] => none
    | c :: cs1 =>
      if c = 'n' then
        match cs1 with
        | 'u' :: 'l' :: 'l' :: r => some (Json.null, r)
        | _ => none
      else if c = 't' then
        match cs1 with
        | 'r' :: 'u' :: 'e' :: r => some (Json.bool true, r)
        | _ => none
      else if c = 'f' then
        match cs1 with
        | 'a' :: 'l' :: 's' :: 'e' :: r => some (Json.bool false, r)
        | _ => none
      else if c = '"' then
        (parseStrBody cs1).map (fun p => (Json.str p.1, p.2))
      else if c = '[' then
        let cs2 := skipWs cs1
        if cs2.head? = some ']' then some (Json.arr [], cs2.tail)
        else (parseElems fuel cs2).map (fun p => (Json.arr p.1, p.2))
      else if c = '{' then
        let cs2 := skipWs cs1
        if cs2.head? = some '}' then some (Json.obj [], cs2.tail)
        else (parseMembers fuel cs2).map (fun p => (Json.obj p.1, p.2))
      else if c = '-' then
        match cs1 with
        | d :: _ =>
          if isDigitC d then
            let p := parseDigits cs1 0
            some (Json.num (-(p.1 : Int)), p.2)
          else none
        | [] => none
      else if isDigitC c then
        let p := parseDigits (c :: cs1) 0
        some (Json.num (p.1 : Int), p.2)
      else none
termination_by structural fuel => fuel

/-- Parse the elements of a nonempty JSON array after the `[`. -/
def parseElems : Nat → Str → Option (List Json × Str)
  | 0, _ => none
  | fuel + 1, cs =>
    match parseVal fuel cs with
    | none => none
    | some (v, r) =>
      match skipWs r with
      | [] => none
      | c :: r2 =>
        if c = ',' then
          match parseElems fuel r2 with
          | some (vs, r3) => some (v :: vs, r3)
          | none => none
        else if c = ']' then some ([v], r2)
        else none
termination_by structural fuel => fuel

/-- Parse the members of a nonempty JSON object after the `{`. -/
def parseMembers : Nat → Str → Option (List (Str × Json) × Str)
  | 0, _ => none
  | fuel + 1, cs =>
    match skipWs cs with
    | [] => none
    | c :: r =>
      if c = '"' then
        match parseStrBody r with
        | none => none
        | some (k, r2) =>
          match skipWs r2 with
          | [] => none
          | c2 :: r4 =>
            if c2 = ':' then
              match parseVal fuel r4 with
              | none => none
              | some (v, r5) =>
                match skipWs r5 with
                | [] => none
                | c3 :: r7 =>
                  if c3 = ',' then
                    match parseMembers fuel r7 with
                    | some (fs, r8) => some ((k, v) :: fs, r8)
                    | none => none
                  else if c3 = '}' then some ([(k, v)], r7)
                  else none
            else none
      else none
termination_by structural fuel => fuel

end

/-- `json.loads`: parse a complete JSON document, requiring only trailing
whitespace after the value; `none` models a raised `JSONDecodeError`. -/
def loads (cs : Str) : Option Json :=
  match parseVal (cs.length + 1) cs with
  | some (v, rest) => if skipWs rest = [] then some v else none
  | none => none

/-- Does the input avoid starting with a digit?  (Trailing context after a
serialized number must not extend the digit run.) -/
def noDigitHead : Str → Bool
  | [] => true
  | c :: _ => !isDigitC c

/-- The serialized first member of a nonempty object (everything after the
opening brace), used to state the object part of the round trip. -/
def encMember1 (k : Str) (v : Json) (fs : List (Str × Json)) : Str :=
  '"' :: (encStrBody k ++ '"' :: ':' :: ' ' :: (encVal v ++ encFieldsRest fs))

/-- Python `path.startswith(target)`. -/
def startswith : Str → Str → Bool
  | _, [] => true
  | [], _ :: _ => false
  | c :: cs, d :: ds => c == d && startswith cs ds

/-- Python's `if candidate not in expanded: expanded[candidate] = content`:
insert a binding only when the key is absent; a fresh key is appended at the
end, matching dict insertion order. -/
def insertIfAbsent (m : List (Str × Str)) (k v : Str) : List (Str × Str) :=
  if (alookup m k).isSome then m else m ++ [(k, v)]

/-- One iteration of the outer loop of `expand_alias_sources`: apply a
single remapping rule `(alias, target)` to every `(path, content)` of the
original `sources`, growing `expanded`. -/
def aliasStep (sources : List (Str × Str)) (expanded : List (Str × Str))
    (rule : Str × Str) : List (Str × Str) :=
  sources.foldl
    (fun exp pc =>
      if startswith pc.1 rule.2 then
        insertIfAbsent exp (rule.1 ++ List.drop rule.2.length pc.1) pc.2
      else exp)
    expanded

/-- `expand_alias_sources(sources, remaps)`: start from a copy of the
source map and, in file order of the rules, duplicate matching entries
under their aliased paths (first writer wins). -/
def expand_alias_sources (sources : List (Str × Str))
    (remaps : List (Str × Str)) : List (Str × Str) :=
  remaps.foldl (aliasStep sources) sources

/-- The keys of an association list are distinct — the invariant of every
Python dict this script builds. -/
abbrev keysNodup {β : Type} (l : List (Str × β)) : Prop := (l.map Prod.fst).Nodup

/-- `load_artifact()`: decode the artifact JSON, take its `metadata` field
and, when that field is itself a JSON-encoded string, decode it once more;
`none` models any raised decoding/`KeyError` exception. -/
def load_artifact (artifactText : Str) : Option Json :=
  match loads artifactText with
  | none => none
  | some data =>
    match getItem data (str "metadata") with
    | none => none
    | some (Json.str s) => loads s
    | some m => some m

/-- The message of the `FileNotFoundError` raised by `read_sources`. -/
def missingMsg (p : Str) : Str := str "Source file missing on disk: " ++ p

/-- The loop of `read_sources`: read every referenced path in order and
stop with the missing-file error at the first absent file. -/
def readSourcesGo (fs : Str → Option Str) : List (Str × Json) → Except Str (List (Str × Str))
  | [] => Except.ok []
  | (p, _) :: rest =>
    match fs p with
    | none => Except.error (missingMsg p)
    | some content =>
      match readSourcesGo fs rest with
      | Except.ok tail => Except.ok ((p, content) :: tail)
      | Except.error e => Except.error e

/-- `read_sources(metadata)` over an abstract file system `fs`. -/
def read_sources (fs : Str → Option Str) (metadata : Json) : Except Str (List (Str × Str)) :=
  match getItem metadata (str "sources") with
  | some (Json.obj fields) => readSourcesGo fs fields
  | _ => Except.error (str "artifact metadata has no sources mapping")

/-- Python `line.split("#", 1)[0]`: everything before the first `#`. -/
def beforeHash : Str → Str
  | [] => []
  | c :: cs => if c = '#' then [] else c :: beforeHash cs

/-- Python `str.strip()`. -/
def trimPy (s : Str) : Str :=
  ((s.dropWhile isPyWs).reverse.dropWhile isPyWs).reverse

/-- The per-line cleanup of `parse_remappings`: strip a `#` comment, strip
whitespace, skip the line if empty, strip one trailing comma. -/
def cleanLine (line : Str) : Option Str :=
  let s := trimPy (beforeHash line)
  if s = [] then none
  else if s.getLast? = some ',' then some s.dropLast else some s

/-- A Python line boundary, as honored by the `splitlines` string method:
`\n`, `\v`, `\f`, `\r`, the file/group/record separators `\x1c`-`\x1e`,
the next-line character `\x85`, and the Unicode line and paragraph
separators U+2028 and U+2029. -/
def isLineBreak (c : Char) : Bool :=
  c.toNat = 10 || c.toNat = 11 || c.toNat = 12 || c.toNat = 13 ||
  c.toNat = 28 || c.toNat = 29 || c.toNat = 30 || c.toNat = 133 ||
  c.toNat = 8232 || c.toNat = 8233

/-- The `splitlines` method of Python strings (how the block is split into
lines): breaks at every line-boundary character, treats `\r\n` as a single
boundary, and produces no final empty line after a trailing terminator.
When a `\r` is directly followed by `\n`, the line list of the tail starts
with the empty line contributed by that `\n`; dropping it makes the pair
act as one boundary. -/
def splitlines (cs0 : Str) : List Str :=
  match cs0 with
  | [] => []
  | c :: cs =>
    if isLineBreak c then
      if c = '\r' ∧ cs.head? = some '\n' then [] :: (splitlines cs).tail
      else [] :: splitlines cs
    else
      match splitlines cs with
      | [] => [[c]]
      | l :: ls => (c :: l) :: ls
termination_by structural cs0

/-- The cleaned entries extracted from a remappings block. -/
def extractEntries (block : Str) : List Str :=
  (splitlines block).filterMap cleanLine

/-- Python `sep.join(entries)` for a one-character separator. -/
def intercalateChar (sep : Char) : List Str → Str
  | [] => []
  | [l] => l
  | l :: ls => l ++ sep :: intercalateChar sep ls

/-- Drop leading Python whitespace. -/
def skipPy (cs : Str) : Str := cs.dropWhile isPyWs

/-- Body of a Python string literal delimited by the quote `q`, with the
usual backslash escapes (an unrecognized escape keeps its backslash, as in
CPython); a raw newline inside the literal is a syntax error. -/
def pyStrBody (q : Char) (cs0 : Str) : Option (Str × Str) :=
  match cs0 with
  | [] => none
  | c :: rest =>
    if c = q then some ([], rest)
    else if c = '\\' then
      match rest with
      | [] => none
      | e :: rest2 =>
        if e = '\\' then (pyStrBody q rest2).map (fun p => ('\\' :: p.1, p.2))
        else if e = '\'' then (pyStrBody q rest2).map (fun p => ('\'' :: p.1, p.2))
        else if e = '"' then (pyStrBody q rest2).map (fun p => ('"' :: p.1, p.2))
        else if e = 'n' then (pyStrBody q rest2).map (fun p => ('\n' :: p.1, p.2))
        else if e = 't' then (pyStrBody q rest2).map (fun p => ('\t' :: p.1, p.2))
        else if e = 'r' then (pyStrBody q rest2).map (fun p => ('\r' :: p.1, p.2))
        else (pyStrBody q rest2).map (fun p => ('\\' :: e :: p.1, p.2))
    else if c = '\n' then none
    else (pyStrBody q rest).map (fun p => (c :: p.1, p.2))
termination_by structural cs0

/-- Elements of a Python list literal whose elements are string literals,
separated by commas, allowing a trailing comma (as `ast.literal_eval`
accepts for the cleaned remappings list). -/
def pyElems : Nat → Str → Option (List Str × Str)
  | 0, _ => none
  | fuel + 1, cs =>
    match skipPy cs with
    | [] => none
    | q :: r =>
      if q = '"' ∨ q = '\'' then
        match pyStrBody q r with
        | none => none
        | some (s, r2) =>
          match skipPy r2 with
          | [] => none
          | c :: r3 =>
            if c = ',' then
              match skipPy r3 with
              | [] => none
              | c2 :: r4 =>
                if c2 = ']' then some ([s], r4)
                else
                  match pyElems fuel (c2 :: r4) with
                  | some (ss, r5) => some (s :: ss, r5)
                  | none => none
            else if c = ']' then some ([s], r3)
            else none
      else none
termination_by structural fuel => fuel

/-- `ast.literal_eval` as used on the rebuilt remappings literal: the whole
string must be a list of Python string literals; anything else is the
fatal parse error (the caller then unpacks `alias=target` pairs, which
fails on non-strings anyway). -/
def parsePyList (cs : Str) : Option (List Str) :=
  match skipPy cs with
  | [] => none
  | c :: r =>
    if c = '[' then
      match skipPy r with
      | [] => none
      | c2 :: r2 =>
        if c2 = ']' then (if (skipPy r2).isEmpty then some [] else none)
        else
          match pyElems (cs.length + 1) (c2 :: r2) with
          | some (ss, rest) => if (skipPy rest).isEmpty then some ss else none
          | none => none
    else none

/-- Python `item.split("=", 1)` unpacked into exactly two parts: split at
the first `=`; `none` models the `ValueError` when no `=` occurs. -/
def splitFirstEq : Str → Option (Str × Str)
  | [] => none
  | c :: cs =>
    if c = '=' then some ([], cs)
    else (splitFirstEq cs).map (fun p => (c :: p.1, p.2))

/-- The body of `parse_remappings` from the captured bracket block on:
clean the lines, rebuild a list literal, evaluate it, split each entry at
its first `=`. -/
def parse_remappings_block (block : Str) : Option (List (Str × Str)) :=
  let entries := extractEntries block
  if entries.isEmpty then some []
  else
    match parsePyList ('[' :: (intercalateChar ',' entries ++ [']'])) with
    | none => none
    | some items => items.mapM splitFirstEq

/-- Match a prefix literally, returning the rest of the input. -/
def dropLit : Str → Str → Option Str
  | [], cs => some cs
  | _ :: _, [] => none
  | l :: ls, c :: cs => if c = l then dropLit ls cs else none

/-- Everything before the first `]` (the non-greedy `(.*?)` capture of the
remappings regex), or `none` when no `]` follows. -/
def takeUntilRB : Str → Option Str
  | [] => none
  | c :: cs => if c = ']' then some [] else (takeUntilRB cs).map (fun l => c :: l)

/-- Try to match `remappings\s*=\s*\[(.*?)\]` at the current position. -/
def matchRemappingsAt (cs : Str) : Option Str :=
  match dropLit (str "remappings") cs with
  | none => none
  | some r1 =>
    match skipPy r1 with
    | '=' :: r2 =>
      match skipPy r2 with
      | '[' :: r3 => takeUntilRB r3
      | _ => none
    | _ => none

/-- `re.search` of the remappings pattern: first match anywhere in the
configuration text. -/
def findRemappingsBlock (cs0 : Str) : Option Str :=
  match cs0 with
  | [] => none
  | c :: cs =>
    match matchRemappingsAt (c :: cs) with
    | some blk => some blk
    | none => findRemappingsBlock cs
termination_by structural cs0

/-- `parse_remappings()` over the configuration text: an absent block is an
empty rule list, not an error. -/
def parse_remappings (toml : Str) : Option (List (Str × Str)) :=
  match findRemappingsBlock toml with
  | none => some []
  | some block => parse_remappings_block block

/-- `sanitize_settings(settings)`: deep copy through a serialization round
trip, then drop the `compilationTarget` key (a no-op when absent). -/
def sanitize_settings (settings : List (Str × Json)) : List (Str × Json) :=
  let copied :=
    match loads (dumps (Json.obj settings)) with
    | some (Json.obj fields) => fields
    | _ => []
  copied.eraseP (fun kv => decide (kv.1 = str "compilationTarget"))

/-- Indentation prefix for nesting depth `lvl` at two spaces per level. -/
def padN (lvl : Nat) : Str := List.replicate (2 * lvl) ' '

mutual

/-- `json.dumps(..., ensure_ascii=False, indent=2)`: the pretty printer
used for the final document (item separator `,` + newline + indentation,
key separator `": "`, empty containers printed inline). -/
def encValInd : Nat → Json → Str
  | _, Json.null => ['n', 'u', 'l', 'l']
  | _, Json.bool true => ['t', 'r', 'u', 'e']
  | _, Json.bool false => ['f', 'a', 'l', 's', 'e']
  | _, Json.num n => intChars n
  | _, Json.str s => '"' :: (encStrBody s ++ ['"'])
  | _, Json.arr [] => ['[', ']']
  | lvl, Json.arr (x :: xs) =>
      '[' :: '\n' :: (padN (lvl + 1) ++ encValInd (lvl + 1) x ++ encElemsInd (lvl + 1) xs
        ++ '\n' :: (padN lvl ++ [']']))
  | _, Json.obj [] => ['{', '}']
  | lvl, Json.obj ((k, v) :: fs) =>
      '{' :: '\n' :: (padN (lvl + 1) ++ '"' :: (encStrBody k ++ '"' :: ':' :: ' ' ::
        (encValInd (lvl + 1) v ++ encFieldsInd (lvl + 1) fs ++ '\n' :: (padN lvl ++ ['}']))))
termination_by structural lvl v => v

/-- Remaining array elements under `indent=2`. -/
def encElemsInd : Nat → List Json → Str
  | _, [] => []
  | lvl, x :: xs => ',' :: '\n' :: (padN lvl ++ encValInd lvl x ++ encElemsInd lvl xs)
termination_by structural lvl l => l

/-- Remaining object members under `indent=2`. -/
def encFieldsInd : Nat → List (Str × Json) → Str
  | _, [] => []
  | lvl, (k, v) :: fs =>
      ',' :: '\n' :: (padN lvl ++ '"' :: (encStrBody k ++ '"' :: ':' :: ' ' ::
        (encValInd lvl v ++ encFieldsInd lvl fs)))
termination_by structural lvl l => l

end

/-- `json.dumps(standard, ensure_ascii=False, indent=2)`. -/
def dumpsIndent (v : Json) : Str := encValInd 0 v

/-- `main()`: the whole pipeline over an abstract file system.  The result
is the text written to the output file, or the error the run aborts with
(in which case nothing is written). -/
def main (artifactText : Str) (fs : Str → Option Str) (toml : Str) : Except Str Str :=
  match load_artifact artifactText with
  | none => Except.error (str "failed to decode artifact metadata")
  | some metadata =>
    match read_sources fs metadata with
    | Except.error e => Except.error e
    | Except.ok sources =>
      match parse_remappings toml with
      | none => Except.error (str "malformed remappings literal")
      | some remaps =>
        let all_sources := expand_alias_sources sources remaps
        match getItem metadata (str "settings") with
        | some (Json.obj settingsFields) =>
          let settings := sanitize_settings settingsFields
          match getItem metadata (str "language") with
          | some lang =>
            Except.ok (dumpsIndent (Json.obj
              [(str "language", lang),
               (str "sources", Json.obj (all_sources.map
                  (fun pc => (pc.1, Json.obj [(str "content", Json.str pc.2)])))),
               (str "settings", Json.obj settings)]))
          | none => Except.error (str "artifact metadata has no language")
        | _ => Except.error (str "artifact settings are not an object")

/-- The sources field of the concrete test metadata. -/
def wSourcesFields : List (Str × Json) := [(str "src/Pool.sol", Json.obj [])]

/-- A small concrete metadata record used to exercise the pipeline. -/
def wMetadata : Json :=
  Json.obj
    [(str "language", Json.str (str "Solidity")),
     (str "sources", Json.obj wSourcesFields),
     (str "settings", Json.obj [(str "optimizer", Json.obj [(str "enabled", Json.bool true)])])]

/-- A small concrete artifact used to exercise the pipeline. -/
def wArtifact : Json := Json.obj [(str "metadata", wMetadata)]

/-- Its serialized text, as the artifact file content. -/
def wArtifactText : Str := dumps wArtifact

/-- A file system with no files at all. -/
def wFsMissing : Str → Option Str := fun _ => none

/-- A file system holding exactly the referenced source file. -/
def wFsPresent : Str → Option Str :=
  fun p => if p = str "src/Pool.sol" then some (str "contract Pool") else none

/-- A configuration text with a comment and a trailing comma. -/
def wToml : Str := str "remappings = [\n  \"@chainlink/=lib/chainlink/\", # alias\n]"

/-- Sources on which two rules collide on one candidate key. -/
def cexSources : List (Str × Str) := [(str "lib1/y/f", str "A"), (str "lib2/f", str "B")]

/-- Two remapping rules producing the same alias key `@x/y/f`. -/
def cexRemaps : List (Str × Str) := [(str "@x/", str "lib1/"), (str "@x/y/", str "lib2/")]

/-- A remappings block whose single entry carries a `#` inside the string
literal. -/
def hashBlock : Str := str "\"a#b=lib/\""

/-- Scenario B sources: one file under the remapped library path. -/
def w1Sources : List (Str × Str) := [(str "lib/chainlink/contracts/Token.sol", str "CONTENT")]

/-- Scenario A/B remapping rule list. -/
def w1Remaps : List (Str × Str) := [(str "@chainlink/", str "lib/chainlink/")]

/-- Sources for the first-writer-wins scenario. -/
def w2Sources : List (Str × Str) := [(str "lib/a/T.sol", str "A"), (str "lib/b/T.sol", str "B")]

/-- First rule, mapping `@x/` to `lib/a/`. -/
def w2R1 : List (Str × Str) := [(str "@x/", str "lib/a/")]

/-- Second rule, colliding on the same candidate key `@x/T.sol`. -/
def w2R2 : List (Str × Str) := [(str "@x/", str "lib/b/")]

/-- Scenario A sources: a path no rule target matches. -/
def w5Sources : List (Str × Str) := [(str "src/Pool.sol", str "POOL")]

/-- Scenario C settings: an optimizer block and a compilation target. -/
def w6Settings : List (Str × Json) :=
  [(str "optimizer", Json.obj [(str "enabled", Json.bool true)]),
   (str "compilationTarget", Json.obj [(str "src/Pool.sol", Json.str (str "Pool"))])]

/-- The text main writes on the successful concrete run. -/
def w8out : Str :=
  match main wArtifactText wFsPresent wToml with
  | Except.ok o => o
  | Except.error _ => []

theorem isDigit_toNat {c : Char} (h : isDigitC c = true) :
    48 ≤ c.toNat ∧ c.toNat ≤ 57 := by
  simpa [isDigitC, Bool.and_eq_true, decide_eq_true_eq] using h

theorem digit_not_ws {c : Char} (h : isDigitC c = true) : isWsChar c = false := by
  have hb := isDigit_toNat h
  simp only [isWsChar, Bool.or_eq_false_iff, decide_eq_false_iff_not]
  omega

theorem skipWs_cons {c : Char} {cs : Str} (h : isWsChar c = false) :
    skipWs (c :: cs) = c :: cs := by
  simp [skipWs, h]

theorem digitChar_toNat {d : Nat} (h : d < 10) : (digitChar d).toNat = 48 + d := by
  interval_cases d <;> rfl

theorem digitChar_isDigit {d : Nat} (h : d < 10) : isDigitC (digitChar d) = true := by
  interval_cases d <;> decide

theorem hexVal_hexChar {n : Nat} (h : n < 16) : hexVal (hexChar n) = some n := by
  interval_cases n <;> decide

/-- Round trip for one serialized string character: the parser decodes
`escapeChar c` back to `c`, whatever the continuation parses to. -/
theorem parseStrBody_escape (c : Char) (cs : Str) :
    parseStrBody (escapeChar c ++ cs) =
      (parseStrBody cs).map (fun p => (c :: p.1, p.2)) := by
  by_cases h1 : c = '"'
  · subst h1; simp [escapeChar]; rw [parseStrBody.eq_def]; simp
  by_cases h2 : c = '\\'
  · subst h2; simp [escapeChar]; rw [parseStrBody.eq_def]; simp
  by_cases h3 : c = '\n'
  · subst h3; simp [escapeChar]; rw [parseStrBody.eq_def]; simp
  by_cases h4 : c = '\t'
  · subst h4; simp [escapeChar]; rw [parseStrBody.eq_def]; simp
  by_cases h5 : c = '\r'
  · subst h5; simp [escapeChar]; rw [parseStrBody.eq_def]; simp
  by_cases h6 : c.toNat = 8
  · have hc : Char.ofNat 8 = c := by rw [← h6, Char.ofNat_toNat]
    simp [escapeChar, h1, h2, h3, h4, h5, h6]
    rw [parseStrBody.eq_def]; simp [hc]; rw [hc]
  by_cases h7 : c.toNat = 12
  · have hc : Char.ofNat 12 = c := by rw [← h7, Char.ofNat_toNat]
    simp [escapeChar, h1, h2, h3, h4, h5, h6, h7]
    rw [parseStrBody.eq_def]; simp [hc]; rw [hc]
  by_cases h8 : c.toNat < 32
  · have hq : c.toNat / 16 < 16 := by omega
    have hr : c.toNat % 16 < 16 := by omega
    have hval : ((0 * 16 + 0) * 16 + c.toNat / 16) * 16 + c.toNat % 16 = c.toNat := by
      omega
    simp only [escapeChar, h1, h2, h3, h4, h5, h6, h7, h8, if_false, if_true,
      ite_true, ite_false, List.cons_append, List.nil_append]
    rw [parseStrBody.eq_def]
    have h0 : hexVal '0' = some 0 := by decide
    simp [h0, hexVal_hexChar hq, hexVal_hexChar hr]
    have hval2 : c.toNat / 16 * 16 + c.toNat % 16 = c.toNat := by omega
    rw [hval2, Char.ofNat_toNat]
  · have hws : escapeChar c = [c] := by
      simp [escapeChar, h1, h2, h3, h4, h5, h6, h7, h8]
    rw [hws, List.cons_append, parseStrBody.eq_def]
    simp [h1, h2]

/-- Round trip for serialized string bodies. -/
theorem parseStrBody_enc (s rest : Str) :
    parseStrBody (encStrBody s ++ '"' :: rest) = some (s, rest) := by
  induction s with
  | nil =>
    simp only [encStrBody, List.nil_append]
    rw [parseStrBody.eq_def]; simp
  | cons c cs ih =>
    simp only [encStrBody, List.append_assoc]
    rw [parseStrBody_escape, ih]
    rfl

theorem digitChar_eq_of_lt {d : Nat} (h : d < 10) :
    digitChar d = Char.ofNat (48 + d) := by
  interval_cases d <;> rfl

/-- `parseDigits` consumes exactly a rendered digit run, folding up its
value, and stops at the first non-digit. -/
theorem parseDigits_append (ds : List Nat) (rest : Str) (acc : Nat)
    (hds : ∀ d ∈ ds, d < 10) (hrest : noDigitHead rest = true) :
    parseDigits (ds.map digitChar ++ rest) acc =
      (ds.foldl (fun a d => a * 10 + d) acc, rest) := by
  induction ds generalizing acc with
  | nil =>
    cases rest with
    | nil => rfl
    | cons c r =>
      have hc : isDigitC c = false := by
        simpa [noDigitHead] using hrest
      simp [parseDigits, hc]
  | cons d ds ih =>
    have hd : d < 10 := hds d (by simp)
    have h1 := digitChar_isDigit hd
    have h2 := digitChar_toNat hd
    have step : parseDigits (digitChar d :: (List.map digitChar ds ++ rest)) acc
        = parseDigits (List.map digitChar ds ++ rest) (acc * 10 + ((digitChar d).toNat - 48)) := by
      simp [parseDigits, h1]
    simp only [List.map_cons, List.cons_append]
    rw [step, h2]
    have h3 : 48 + d - 48 = d := by omega
    rw [h3, List.foldl_cons]
    exact ih (acc * 10 + d) (fun e he => hds e (List.mem_cons_of_mem _ he))

/-- Folding up big-endian digits recovers the number. -/
theorem foldl_reverse_digits (L : List Nat) (acc : Nat) :
    (L.reverse).foldl (fun a d => a * 10 + d) acc =
      acc * 10 ^ L.length + Nat.ofDigits 10 L := by
  induction L generalizing acc with
  | nil => simp [Nat.ofDigits]
  | cons x t ih =>
    simp only [List.reverse_cons, List.foldl_append, ih, List.foldl_cons,
      List.foldl_nil, Nat.ofDigits_cons, List.length_cons]
    ring

/-- The fuel-based digit printer agrees with `Nat.digits` (for positive
numbers, with enough fuel). -/
theorem natCharsAux_eq_digits (fuel : Nat) :
    ∀ n acc, 0 < n → n < 10 ^ fuel →
      natCharsAux fuel n acc = ((Nat.digits 10 n).reverse.map digitChar) ++ acc := by
  induction fuel with
  | zero => intro n acc h1 h2; simp at h2; omega
  | succ fuel ih =>
    intro n acc h1 h2
    by_cases hn : n < 10
    · have hd : Nat.digits 10 n = [n] := by
        rw [Nat.digits_def' (by norm_num) h1]
        have h0 : n / 10 = 0 := by omega
        simp [h0, Nat.mod_eq_of_lt hn]
      simp only [natCharsAux, if_pos hn, hd]
      simp
    · have hq1 : 0 < n / 10 := by omega
      have hq2 : n / 10 < 10 ^ fuel := by
        rw [pow_succ] at h2
        omega
      have hd : Nat.digits 10 n = n % 10 :: Nat.digits 10 (n / 10) := by
        rw [Nat.digits_def' (by norm_num) h1]
      simp only [natCharsAux, if_neg hn]
      rw [ih (n / 10) _ hq1 hq2, hd]
      simp

/-- `natChars` prints the decimal digits of `n`. -/
theorem natChars_eq (n : Nat) (h : 0 < n) :
    natChars n = (Nat.digits 10 n).reverse.map digitChar := by
  have hfuel : n < 10 ^ (n + 1) := by
    calc n < 2 ^ n := Nat.lt_two_pow n
    _ ≤ 10 ^ n := Nat.pow_le_pow_left (by norm_num) n
    _ ≤ 10 ^ (n + 1) := Nat.pow_le_pow_right (by norm_num) (Nat.le_succ n)
  rw [natChars, natCharsAux_eq_digits (n + 1) n [] h hfuel, List.append_nil]

/-- Round trip for printed natural numbers. -/
theorem parseDigits_natChars (n : Nat) (rest : Str) (hrest : noDigitHead rest = true) :
    parseDigits (natChars n ++ rest) 0 = (n, rest) := by
  by_cases h : n = 0
  · subst h
    have : natChars 0 = [0].map digitChar := rfl
    rw [this, parseDigits_append [0] rest 0 (by simp) hrest]
    rfl
  · rw [natChars_eq n (by omega),
      parseDigits_append _ rest 0
        (fun d hd => Nat.digits_lt_base (by norm_num) (List.mem_reverse.mp hd)) hrest,
      foldl_reverse_digits]
    simp [Nat.ofDigits_digits]

/-- Every character of a printed natural number is a digit. -/
theorem natChars_all_digits (n : Nat) : ∀ c ∈ natChars n, isDigitC c = true := by
  by_cases h : n = 0
  · subst h; intro c hc; simp [natChars, natCharsAux] at hc; subst hc; decide
  · rw [natChars_eq n (by omega)]
    intro c hc
    simp only [List.mem_map, List.mem_reverse] at hc
    obtain ⟨d, hd, rfl⟩ := hc
    exact digitChar_isDigit (Nat.digits_lt_base (by norm_num) hd)

/-- A printed natural number is never empty. -/
theorem natChars_ne_nil (n : Nat) : natChars n ≠ [] := by
  by_cases h : n = 0
  · subst h; decide
  · rw [natChars_eq n (by omega)]
    simp [Nat.digits_ne_nil_iff_ne_zero, h]

theorem skipWs_cons_ws {c : Char} {cs : Str} (h : isWsChar c = true) :
    skipWs (c :: cs) = skipWs cs := by
  simp [skipWs, h]

theorem skipWs_idem (cs : Str) : skipWs (skipWs cs) = skipWs cs := by
  induction cs with
  | nil => rfl
  | cons c cs ih =>
    by_cases h : isWsChar c = true
    · rw [skipWs_cons_ws h]; exact ih
    · have hb : isWsChar c = false := by revert h; cases isWsChar c <;> simp
      rw [skipWs_cons hb, skipWs_cons hb]

theorem parseVal_skipWs (f : Nat) (cs : Str) :
    parseVal f (skipWs cs) = parseVal f cs := by
  cases f with
  | zero => rw [parseVal.eq_def, parseVal.eq_def]
  | succ f =>
    rw [parseVal.eq_def]
    conv_rhs => rw [parseVal.eq_def]
    simp only [skipWs_idem]

theorem parseVal_space (f : Nat) (cs : Str) :
    parseVal f (' ' :: cs) = parseVal f cs := by
  rw [← parseVal_skipWs f (' ' :: cs), skipWs_cons_ws (by decide), parseVal_skipWs]

theorem parseElems_space (f : Nat) (cs : Str) :
    parseElems f (' ' :: cs) = parseElems f cs := by
  cases f with
  | zero => rw [parseElems.eq_def, parseElems.eq_def]
  | succ f =>
    rw [parseElems.eq_def]
    conv_rhs => rw [parseElems.eq_def]
    simp only [parseVal_space]

theorem parseMembers_space (f : Nat) (cs : Str) :
    parseMembers f (' ' :: cs) = parseMembers f cs := by
  cases f with
  | zero => rw [parseMembers.eq_def, parseMembers.eq_def]
  | succ f =>
    rw [parseMembers.eq_def]
    conv_rhs => rw [parseMembers.eq_def]
    simp only [skipWs_cons_ws (show isWsChar ' ' = true by decide)]

theorem parseVal_null_lit (f : Nat) (r : Str) :
    parseVal (f + 1) ('n' :: 'u' :: 'l' :: 'l' :: r) = some (Json.null, r) := by
  rw [parseVal.eq_def]
  simp [skipWs_cons (show isWsChar 'n' = false from by decide)]

theorem parseVal_true_lit (f : Nat) (r : Str) :
    parseVal (f + 1) ('t' :: 'r' :: 'u' :: 'e' :: r) = some (Json.bool true, r) := by
  rw [parseVal.eq_def]
  simp [skipWs_cons (show isWsChar 't' = false from by decide)]

theorem parseVal_false_lit (f : Nat) (r : Str) :
    parseVal (f + 1) ('f' :: 'a' :: 'l' :: 's' :: 'e' :: r) = some (Json.bool false, r) := by
  rw [parseVal.eq_def]
  simp [skipWs_cons (show isWsChar 'f' = false from by decide)]

theorem parseVal_quote (f : Nat) (cs1 : Str) :
    parseVal (f + 1) ('"' :: cs1) =
      (parseStrBody cs1).map (fun p => (Json.str p.1, p.2)) := by
  rw [parseVal.eq_def]
  simp [skipWs_cons (show isWsChar '"' = false from by decide)]

theorem parseVal_lbrack (f : Nat) (cs1 : Str) :
    parseVal (f + 1) ('[' :: cs1) =
      (if (skipWs cs1).head? = some ']' then some (Json.arr [], (skipWs cs1).tail)
       else (parseElems f (skipWs cs1)).map (fun p => (Json.arr p.1, p.2))) := by
  rw [parseVal.eq_def]
  simp [skipWs_cons (show isWsChar '[' = false from by decide)]

theorem parseVal_lbrace (f : Nat) (cs1 : Str) :
    parseVal (f + 1) ('{' :: cs1) =
      (if (skipWs cs1).head? = some '}' then some (Json.obj [], (skipWs cs1).tail)
       else (parseMembers f (skipWs cs1)).map (fun p => (Json.obj p.1, p.2))) := by
  rw [parseVal.eq_def]
  simp [skipWs_cons (show isWsChar '{' = false from by decide)]

theorem parseVal_dash (f : Nat) (d : Char) (t : Str) (hd : isDigitC d = true) :
    parseVal (f + 1) ('-' :: d :: t) =
      (let p := parseDigits (d :: t) 0
       some (Json.num (-(p.1 : Int)), p.2)) := by
  rw [parseVal.eq_def]
  simp [hd, skipWs_cons (show isWsChar '-' = false from by decide)]

theorem parseVal_digit_start (f : Nat) (c : Char) (cs1 : Str) (h : isDigitC c = true) :
    parseVal (f + 1) (c :: cs1) =
      (let p := parseDigits (c :: cs1) 0
       some (Json.num (p.1 : Int), p.2)) := by
  have hn : c ≠ 'n' := by rintro rfl; revert h; decide
  have ht : c ≠ 't' := by rintro rfl; revert h; decide
  have hf : c ≠ 'f' := by rintro rfl; revert h; decide
  have hq : c ≠ '"' := by rintro rfl; revert h; decide
  have hlk : c ≠ '[' := by rintro rfl; revert h; decide
  have hlc : c ≠ '{' := by rintro rfl; revert h; decide
  have hds : c ≠ '-' := by rintro rfl; revert h; decide
  rw [parseVal.eq_def]
  simp [hn, ht, hf, hq, hlk, hlc, hds, h, skipWs_cons (digit_not_ws h)]

theorem encVal_num_eq (n : Int) : encVal (Json.num n) = intChars n := rfl

theorem encVal_obj_cons (k : Str) (v : Json) (fs : List (Str × Json)) :
    encVal (Json.obj ((k, v) :: fs)) = '{' :: encMember1 k v fs := rfl

theorem encFieldsRest_cons (k : Str) (v : Json) (fs : List (Str × Json)) :
    encFieldsRest ((k, v) :: fs) = ',' :: ' ' :: encMember1 k v fs := rfl

theorem digit_ne_rbrack {c : Char} (h : isDigitC c = true) : c ≠ ']' := by
  rintro rfl; revert h; decide

/-- Every serialized value starts with a non-whitespace character that is
not a closing bracket. -/
theorem encVal_cons (v : Json) :
    ∃ c t, encVal v = c :: t ∧ isWsChar c = false ∧ c ≠ ']' := by
  cases v with
  | null => exact ⟨'n', _, rfl, by decide, by decide⟩
  | bool b =>
    cases b with
    | false => exact ⟨'f', _, rfl, by decide, by decide⟩
    | true => exact ⟨'t', _, rfl, by decide, by decide⟩
  | num m =>
    by_cases hm : m < 0
    · exact ⟨'-', natChars m.natAbs, by rw [encVal_num_eq]; simp [intChars, hm],
        by decide, by decide⟩
    · cases hnc : natChars m.toNat with
      | nil => exact absurd hnc (natChars_ne_nil _)
      | cons c0 t0 =>
        have hd : isDigitC c0 = true :=
          natChars_all_digits _ c0 (by rw [hnc]; exact List.mem_cons_self _ _)
        exact ⟨c0, t0, by rw [encVal_num_eq]; simp [intChars, hm, hnc],
          digit_not_ws hd, digit_ne_rbrack hd⟩
  | str s => exact ⟨'"', _, rfl, by decide, by decide⟩
  | arr xs =>
    cases xs with
    | nil => exact ⟨'[', _, rfl, by decide, by decide⟩
    | cons x xs => exact ⟨'[', _, rfl, by decide, by decide⟩
  | obj fs =>
    cases fs with
    | nil => exact ⟨'{', _, rfl, by decide, by decide⟩
    | cons kv fs =>
      obtain ⟨k, v⟩ := kv
      exact ⟨'{', _, rfl, by decide, by decide⟩

theorem encVal_length_pos (v : Json) : 1 ≤ (encVal v).length := by
  obtain ⟨c, t, he, -, -⟩ := encVal_cons v
  rw [he]; simp

theorem encElemsRest_length_pos (xs : List Json) : 1 ≤ (encElemsRest xs).length := by
  cases xs with
  | nil => simp [encElemsRest]
  | cons x xs => simp [encElemsRest]

theorem encFieldsRest_length_pos (fs : List (Str × Json)) :
    1 ≤ (encFieldsRest fs).length := by
  cases fs with
  | nil => simp [encFieldsRest]
  | cons kv fs => obtain ⟨k, v⟩ := kv; simp [encFieldsRest]

theorem noDigitHead_elemsRest (xs : List Json) (rest : Str) :
    noDigitHead (encElemsRest xs ++ rest) = true := by
  cases xs with
  | nil => rfl
  | cons x xs => rfl

theorem noDigitHead_fieldsRest (fs : List (Str × Json)) (rest : Str) :
    noDigitHead (encFieldsRest fs ++ rest) = true := by
  cases fs with
  | nil => rfl
  | cons kv fs => obtain ⟨k, v⟩ := kv; rfl

theorem parseElems_succ (f : Nat) (cs : Str) :
    parseElems (f + 1) cs =
      (match parseVal f cs with
      | none => none
      | some (v, r) =>
        match skipWs r with
        | [] => none
        | c :: r2 =>
          if c = ',' then
            match parseElems f r2 with
            | some (vs, r3) => some (v :: vs, r3)
            | none => none
          else if c = ']' then some ([v], r2)
          else none) := by
  rw [parseElems.eq_def]

theorem parseMembers_succ (f : Nat) (cs : Str) :
    parseMembers (f + 1) cs =
      (match skipWs cs with
      | [] => none
      | c :: r =>
        if c = '"' then
          match parseStrBody r with
          | none => none
          | some (k, r2) =>
            match skipWs r2 with
            | [] => none
            | c2 :: r4 =>
              if c2 = ':' then
                match parseVal f r4 with
                | none => none
                | some (v, r5) =>
                  match skipWs r5 with
                  | [] => none
                  | c3 :: r7 =>
                    if c3 = ',' then
                      match parseMembers f r7 with
                      | some (fs, r8) => some ((k, v) :: fs, r8)
                      | none => none
                    else if c3 = '}' then some ([(k, v)], r7)
                    else none
              else none
        else none) := by
  rw [parseMembers.eq_def]

/-- Round trip of the serializer and the parser, by strong induction on the
length of the serialized text: parsing a serialized value (or element list,
or member list) consumes exactly it and returns the value. -/
theorem json_rt (n : Nat) :
    (∀ (v : Json) (f : Nat) (rest : Str), (encVal v).length = n → n ≤ f →
      noDigitHead rest = true → parseVal f (encVal v ++ rest) = some (v, rest)) ∧
    (∀ (x : Json) (xs : List Json) (f : Nat) (rest : Str),
      (encVal x ++ encElemsRest xs).length = n → n ≤ f → noDigitHead rest = true →
      parseElems f ((encVal x ++ encElemsRest xs) ++ rest) = some (x :: xs, rest)) ∧
    (∀ (k : Str) (v : Json) (fs : List (Str × Json)) (f : Nat) (rest : Str),
      (encMember1 k v fs).length = n → n ≤ f → noDigitHead rest = true →
      parseMembers f (encMember1 k v fs ++ rest) = some ((k, v) :: fs, rest)) := by
  induction n using Nat.strong_induction_on with
  | _ n IH =>
    refine ⟨?_, ?_, ?_⟩
    · -- values
      intro v f rest hlen hf hrest
      have hpos : 1 ≤ n := hlen ▸ encVal_length_pos v
      cases f with
      | zero => omega
      | succ f' =>
        cases v with
        | null =>
          show parseVal (f' + 1) (['n', 'u', 'l', 'l'] ++ rest) = _
          simp only [List.cons_append, List.nil_append]
          exact parseVal_null_lit f' rest
        | bool b =>
          cases b with
          | true =>
            show parseVal (f' + 1) (['t', 'r', 'u', 'e'] ++ rest) = _
            simp only [List.cons_append, List.nil_append]
            exact parseVal_true_lit f' rest
          | false =>
            show parseVal (f' + 1) (['f', 'a', 'l', 's', 'e'] ++ rest) = _
            simp only [List.cons_append, List.nil_append]
            exact parseVal_false_lit f' rest
        | num m =>
          rw [encVal_num_eq]
          by_cases hm : m < 0
          · have hi : intChars m = '-' :: natChars m.natAbs := by simp [intChars, hm]
            cases hnc : natChars m.natAbs with
            | nil => exact absurd hnc (natChars_ne_nil _)
            | cons c0 t0 =>
              have hd : isDigitC c0 = true :=
                natChars_all_digits _ c0 (by rw [hnc]; exact List.mem_cons_self _ _)
              rw [hi, hnc]
              simp only [List.cons_append]
              rw [parseVal_dash f' c0 (t0 ++ rest) hd]
              have hpd : parseDigits (c0 :: (t0 ++ rest)) 0 = (m.natAbs, rest) := by
                have h := parseDigits_natChars m.natAbs rest hrest
                rw [hnc] at h
                simpa using h
              simp only [hpd]
              have hcast : -((m.natAbs : Nat) : Int) = m := by omega
              rw [hcast]
          · cases hnc : natChars m.toNat with
            | nil => exact absurd hnc (natChars_ne_nil _)
            | cons c0 t0 =>
              have hd : isDigitC c0 = true :=
                natChars_all_digits _ c0 (by rw [hnc]; exact List.mem_cons_self _ _)
              have hi : intChars m = c0 :: t0 := by rw [← hnc]; simp [intChars, hm]
              rw [hi]
              simp only [List.cons_append]
              rw [parseVal_digit_start f' c0 (t0 ++ rest) hd]
              have hpd : parseDigits (c0 :: (t0 ++ rest)) 0 = (m.toNat, rest) := by
                have h := parseDigits_natChars m.toNat rest hrest
                rw [hnc] at h
                simpa using h
              simp only [hpd]
              have hcast : ((m.toNat : Nat) : Int) = m := by omega
              rw [hcast]
        | str s =>
          show parseVal (f' + 1) (('"' :: (encStrBody s ++ ['"'])) ++ rest) = _
          have harg : ('"' :: (encStrBody s ++ ['"'])) ++ rest
              = '"' :: (encStrBody s ++ '"' :: rest) := by simp
          rw [harg, parseVal_quote, parseStrBody_enc]
          rfl
        | arr xs =>
          cases xs with
          | nil =>
            show parseVal (f' + 1) (['[', ']'] ++ rest) = _
            simp only [List.cons_append, List.nil_append]
            rw [parseVal_lbrack, skipWs_cons (by decide)]
            simp
          | cons x xs =>
            show parseVal (f' + 1) (('[' :: (encVal x ++ encElemsRest xs)) ++ rest) = _
            simp only [List.cons_append]
            rw [parseVal_lbrack f' ((encVal x ++ encElemsRest xs) ++ rest)]
            obtain ⟨c0, t0, hx, hxw, hxr⟩ := encVal_cons x
            have harg : (encVal x ++ encElemsRest xs) ++ rest
                = c0 :: (t0 ++ encElemsRest xs ++ rest) := by rw [hx]; simp
            rw [harg, skipWs_cons hxw]
            have hhead : ¬ ((c0 :: (t0 ++ encElemsRest xs ++ rest)).head? = some ']') := by
              simp [hxr]
            rw [if_neg hhead, ← harg]
            have hlen2 : n = 1 + (encVal x ++ encElemsRest xs).length := by
              have : (encVal (Json.arr (x :: xs))).length
                  = 1 + (encVal x ++ encElemsRest xs).length := by
                show (('[' :: (encVal x ++ encElemsRest xs))).length = _
                simp
                omega
              omega
            have hm2 : (encVal x ++ encElemsRest xs).length < n := by omega
            have h := (IH _ hm2).2.1 x xs f' rest rfl (by omega) hrest
            rw [h]
            rfl
        | obj fs =>
          cases fs with
          | nil =>
            show parseVal (f' + 1) (['{', '}'] ++ rest) = _
            simp only [List.cons_append, List.nil_append]
            rw [parseVal_lbrace, skipWs_cons (by decide)]
            simp
          | cons kv fs =>
            obtain ⟨k, v⟩ := kv
            rw [encVal_obj_cons]
            simp only [List.cons_append]
            rw [parseVal_lbrace f' (encMember1 k v fs ++ rest)]
            have harg : encMember1 k v fs ++ rest
                = '"' :: ((encStrBody k ++ '"' :: ':' :: ' ' :: (encVal v ++ encFieldsRest fs)) ++ rest) := by
              simp [encMember1]
            rw [harg, skipWs_cons (by decide)]
            have hhead : ¬ (('"' :: ((encStrBody k ++ '"' :: ':' :: ' ' :: (encVal v ++ encFieldsRest fs)) ++ rest)).head? = some '}') := by
              simp
            rw [if_neg hhead, ← harg]
            have hlen2 : n = 1 + (encMember1 k v fs).length := by
              have : (encVal (Json.obj ((k, v) :: fs))).length
                  = 1 + (encMember1 k v fs).length := by
                rw [encVal_obj_cons]; simp; omega
              omega
            have hm2 : (encMember1 k v fs).length < n := by omega
            have h := (IH _ hm2).2.2 k v fs f' rest rfl (by omega) hrest
            rw [h]
            rfl
    · -- array elements
      intro x xs f rest hlen hf hrest
      have h1 := encVal_length_pos x
      have h2 := encElemsRest_length_pos xs
      have hlen2 : n = (encVal x).length + (encElemsRest xs).length := by
        rw [← hlen]; simp
      cases f with
      | zero => omega
      | succ f' =>
        rw [parseElems_succ]
        have hx : parseVal f' ((encVal x ++ encElemsRest xs) ++ rest)
            = some (x, encElemsRest xs ++ rest) := by
          rw [List.append_assoc]
          exact (IH _ (by omega)).1 x f' (encElemsRest xs ++ rest) rfl (by omega)
            (noDigitHead_elemsRest xs rest)
        rw [hx]
        cases xs with
        | nil =>
          show (match skipWs (([']'] : Str) ++ rest) with
            | [] => none
            | c :: r2 =>
              if c = ',' then
                match parseElems f' r2 with
                | some (vs, r3) => some (x :: vs, r3)
                | none => none
              else if c = ']' then some ([x], r2)
              else none) = some ([x], rest)
          simp only [List.cons_append, List.nil_append]
          rw [skipWs_cons (by decide)]
          simp
        | cons y ys =>
          have he : encElemsRest (y :: ys) ++ rest
              = ',' :: ' ' :: (encVal y ++ (encElemsRest ys ++ rest)) := by
            show (',' :: ' ' :: (encVal y ++ encElemsRest ys)) ++ rest = _
            simp
          have h3 := encVal_length_pos y
          have h4 := encElemsRest_length_pos ys
          have hlen3 : (encElemsRest (y :: ys)).length
              = 2 + (encVal y ++ encElemsRest ys).length := by
            show ((',' :: ' ' :: (encVal y ++ encElemsRest ys))).length = _
            simp only [List.length_cons, List.length_append]
            omega
          have hys : parseElems f' (' ' :: (encVal y ++ (encElemsRest ys ++ rest)))
              = some (y :: ys, rest) := by
            rw [parseElems_space, ← List.append_assoc]
            refine (IH _ ?_).2.1 y ys f' rest rfl ?_ hrest
            · omega
            · omega
          rw [he]
          simp [hys, skipWs_cons (show isWsChar ',' = false from by decide)]
    · -- object members
      intro k v fs f rest hlen hf hrest
      have h1 := encVal_length_pos v
      have h2 := encFieldsRest_length_pos fs
      have hlen2 : n = (encStrBody k).length + (encVal v).length
          + (encFieldsRest fs).length + 4 := by
        rw [← hlen]; simp [encMember1]; omega
      cases f with
      | zero => omega
      | succ f' =>
        rw [parseMembers_succ]
        have harg : encMember1 k v fs ++ rest
            = '"' :: (encStrBody k ++ '"' ::
                (':' :: ' ' :: (encVal v ++ (encFieldsRest fs ++ rest)))) := by
          simp [encMember1]
        rw [harg, skipWs_cons (show isWsChar '"' = false from by decide)]
        have hv : parseVal f' (' ' :: (encVal v ++ (encFieldsRest fs ++ rest)))
            = some (v, encFieldsRest fs ++ rest) := by
          rw [parseVal_space]
          exact (IH _ (by omega)).1 v f' (encFieldsRest fs ++ rest) rfl (by omega)
            (noDigitHead_fieldsRest fs rest)
        cases fs with
        | nil =>
          have hnilf : encFieldsRest ([] : List (Str × Json)) = ['}'] := rfl
          rw [hnilf] at hv
          simp only [List.cons_append, List.nil_append] at hv
          simp [parseStrBody_enc, hv, hnilf,
            skipWs_cons (show isWsChar ':' = false from by decide),
            skipWs_cons (show isWsChar '}' = false from by decide)]
        | cons kv2 fs2 =>
          obtain ⟨k2, v2⟩ := kv2
          have he : encFieldsRest ((k2, v2) :: fs2) ++ rest
              = ',' :: ' ' :: (encMember1 k2 v2 fs2 ++ rest) := by
            rw [encFieldsRest_cons]; simp
          have hlen3 : (encFieldsRest ((k2, v2) :: fs2)).length
              = 2 + (encMember1 k2 v2 fs2).length := by
            rw [encFieldsRest_cons]
            simp only [List.length_cons]
            omega
          have hfs : parseMembers f' (' ' :: (encMember1 k2 v2 fs2 ++ rest))
              = some ((k2, v2) :: fs2, rest) := by
            rw [parseMembers_space]
            refine (IH _ ?_).2.2 k2 v2 fs2 f' rest rfl ?_ hrest
            · omega
            · omega
          rw [he] at hv
          simp [parseStrBody_enc, hv, he, hfs,
            skipWs_cons (show isWsChar ':' = false from by decide),
            skipWs_cons (show isWsChar ',' = false from by decide)]

/-- The serializer and parser round-trip on every JSON value: the heart of
`sanitize_settings`' deep copy and `load_artifact`'s double decoding. -/
theorem loads_dumps (v : Json) : loads (dumps v) = some v := by
  have h := (json_rt (encVal v).length).1 v ((encVal v).length + 1) [] rfl (by omega) rfl
  rw [List.append_nil] at h
  show (match parseVal ((encVal v).length + 1) (encVal v) with
    | some (w, rest) => if skipWs rest = [] then some w else none
    | none => none) = some v
  rw [h]
  rfl

theorem startswith_iff (p t : Str) : startswith p t = true ↔ ∃ s, p = t ++ s := by
  induction t generalizing p with
  | nil =>
    constructor
    · intro _; exact ⟨p, rfl⟩
    · intro _; cases p <;> rfl
  | cons d ds ih =>
    cases p with
    | nil =>
      constructor
      · intro h; exact absurd h (by simp [startswith])
      · rintro ⟨s, hs⟩; exact absurd hs (by simp)
    | cons c cs =>
      constructor
      · intro h
        have h2 : c = d ∧ startswith cs ds = true := by
          simpa [startswith, Bool.and_eq_true] using h
        obtain ⟨rfl, hsw⟩ := h2
        obtain ⟨s, rfl⟩ := (ih cs).mp hsw
        exact ⟨s, rfl⟩
      · rintro ⟨s, hs⟩
        injection hs with h1 h2
        subst h1
        simp [startswith, Bool.and_eq_true]
        exact (ih cs).mpr ⟨s, h2⟩

theorem alookup_append_some {m m2 : List (Str × Str)} {k v : Str}
    (h : alookup m k = some v) : alookup (m ++ m2) k = some v := by
  induction m with
  | nil => simp [alookup] at h
  | cons ab m ih =>
    obtain ⟨a, b⟩ := ab
    by_cases hk : a = k
    · subst hk
      simp [alookup] at h ⊢
      exact h
    · simp [alookup, hk] at h ⊢
      exact ih h

theorem alookup_append_none {m m2 : List (Str × Str)} {k : Str}
    (h : alookup m k = none) : alookup (m ++ m2) k = alookup m2 k := by
  induction m with
  | nil => rfl
  | cons ab m ih =>
    obtain ⟨a, b⟩ := ab
    by_cases hk : a = k
    · subst hk; simp [alookup] at h
    · simp [alookup, hk] at h ⊢
      exact ih h

theorem alookup_insertIfAbsent_some {m : List (Str × Str)} {k v k' v' : Str}
    (h : alookup m k = some v) :
    alookup (insertIfAbsent m k' v') k = some v := by
  unfold insertIfAbsent
  by_cases hk : (alookup m k').isSome
  · simp [hk, h]
  · simp [hk]
    exact alookup_append_some h

theorem alookup_insertIfAbsent_ne {m : List (Str × Str)} {k k' v' : Str}
    (hne : k' ≠ k) :
    alookup (insertIfAbsent m k' v') k = alookup m k := by
  unfold insertIfAbsent
  by_cases hk : (alookup m k').isSome
  · simp [hk]
  · simp [hk]
    cases h : alookup m k with
    | some v => exact alookup_append_some h
    | none => rw [alookup_append_none h]; simp [alookup, hne]

theorem alookup_insertIfAbsent_self {m : List (Str × Str)} {k v : Str}
    (h : alookup m k = none) :
    alookup (insertIfAbsent m k v) k = some v := by
  unfold insertIfAbsent
  rw [h]
  simp
  rw [alookup_append_none h]
  simp [alookup]

theorem aliasStep_cons (pc : Str × Str) (l st : List (Str × Str)) (rule : Str × Str) :
    aliasStep (pc :: l) st rule =
      aliasStep l
        (if startswith pc.1 rule.2 then
          insertIfAbsent st (rule.1 ++ List.drop rule.2.length pc.1) pc.2
        else st) rule := rfl

/-- Whatever one rule application does, existing bindings survive it with
their values intact. -/
theorem aliasStep_persist (l : List (Str × Str)) (rule : Str × Str) :
    ∀ (st : List (Str × Str)) (k v : Str), alookup st k = some v →
      alookup (aliasStep l st rule) k = some v := by
  induction l with
  | nil => intro st k v h; exact h
  | cons pc l ih =>
    intro st k v h
    rw [aliasStep_cons]
    by_cases hsw : startswith pc.1 rule.2 = true
    · rw [if_pos hsw]
      exact ih _ k v (alookup_insertIfAbsent_some h)
    · rw [if_neg hsw]
      exact ih _ k v h

/-- Bindings survive any sequence of rule applications. -/
theorem foldl_alias_persist (sources : List (Str × Str)) (rules : List (Str × Str)) :
    ∀ (st : List (Str × Str)) (k v : Str), alookup st k = some v →
      alookup (rules.foldl (aliasStep sources) st) k = some v := by
  induction rules with
  | nil => intro st k v h; exact h
  | cons r rules ih =>
    intro st k v h
    rw [List.foldl_cons]
    exact ih _ k v (aliasStep_persist sources r st k v h)

/-- Applying one rule inserts the alias binding for a matching source entry
whose candidate key is still absent. -/
theorem aliasStep_inserts (a t p c : Str) :
    ∀ (l st : List (Str × Str)), keysNodup l → (p, c) ∈ l →
      startswith p t = true →
      alookup st (a ++ List.drop t.length p) = none →
      alookup (aliasStep l st (a, t)) (a ++ List.drop t.length p) = some c := by
  intro l
  induction l with
  | nil => intro st _ hmem; exact absurd hmem (by simp)
  | cons qd l ih =>
    intro st hnd hmem hsw habs
    obtain ⟨q, d⟩ := qd
    rw [aliasStep_cons]
    rcases List.mem_cons.mp hmem with heq | hmem'
    · injection heq with h1 h2
      subst h1; subst h2
      rw [if_pos hsw]
      exact aliasStep_persist l (a, t) _ _ _ (alookup_insertIfAbsent_self habs)
    · have hnd' : keysNodup l := by
        have := hnd
        simp [keysNodup, List.nodup_cons] at this
        exact this.2
      have hqp : q ≠ p := by
        intro heqp
        subst heqp
        have hq : q ∈ l.map Prod.fst := List.mem_map.mpr ⟨(q, c), hmem', rfl⟩
        have := hnd
        simp [keysNodup, List.nodup_cons] at this
        exact this.1 _ hmem'
      by_cases hswq : startswith q t = true
      · rw [if_pos hswq]
        refine ih _ hnd' hmem' hsw ?_
        have hne : a ++ List.drop t.length q ≠ a ++ List.drop t.length p := by
          obtain ⟨s1, rfl⟩ := (startswith_iff q t).mp hswq
          obtain ⟨s2, rfl⟩ := (startswith_iff p t).mp hsw
          rw [List.drop_left, List.drop_left]
          intro hcontr
          exact hqp (by rw [List.append_cancel_left hcontr])
        rw [alookup_insertIfAbsent_ne hne]
        exact habs
      · rw [if_neg hswq]
        exact ih _ hnd' hmem' hsw habs

theorem alookup_insert_isSome {m : List (Str × Str)} {k v k' : Str}
    (h : (alookup (insertIfAbsent m k v) k').isSome = true) :
    (alookup m k').isSome = true ∨ k' = k := by
  by_cases hk : (alookup m k).isSome
  · left
    unfold insertIfAbsent at h
    rw [if_pos hk] at h
    exact h
  · unfold insertIfAbsent at h
    rw [if_neg hk] at h
    cases hmk : alookup m k' with
    | some v2 => left; simp [hmk]
    | none =>
      right
      rw [alookup_append_none hmk] at h
      by_cases hkk : k = k'
      · exact hkk.symm
      · simp [alookup, hkk] at h

/-- Any key present after one rule application was already present or is
the candidate of some matching original source path. -/
theorem aliasStep_keys (rule : Str × Str) (k : Str) :
    ∀ (l st : List (Str × Str)),
      (alookup (aliasStep l st rule) k).isSome = true →
      (alookup st k).isSome = true ∨
        ∃ p c, (p, c) ∈ l ∧ startswith p rule.2 = true ∧
          k = rule.1 ++ List.drop rule.2.length p := by
  intro l
  induction l with
  | nil => intro st h; exact Or.inl h
  | cons qd l ih =>
    intro st h
    obtain ⟨q, d⟩ := qd
    rw [aliasStep_cons] at h
    rcases ih _ h with hst | ⟨p, c, hmem, hsw, hk⟩
    · by_cases hswq : startswith q rule.2 = true
      · rw [if_pos hswq] at hst
        rcases alookup_insert_isSome hst with h1 | h2
        · exact Or.inl h1
        · exact Or.inr ⟨q, d, List.mem_cons_self _ _, hswq, h2⟩
      · rw [if_neg hswq] at hst
        exact Or.inl hst
    · exact Or.inr ⟨p, c, List.mem_cons_of_mem _ hmem, hsw, hk⟩

/-- Any key present after a sequence of rule applications was already
present or is the candidate of some rule and matching original path. -/
theorem foldl_alias_keys (sources : List (Str × Str)) (k : Str) :
    ∀ (rules : List (Str × Str)) (st : List (Str × Str)),
      (alookup (rules.foldl (aliasStep sources) st) k).isSome = true →
      (alookup st k).isSome = true ∨
        ∃ rule p c, rule ∈ rules ∧ (p, c) ∈ sources ∧
          startswith p rule.2 = true ∧
          k = rule.1 ++ List.drop rule.2.length p := by
  intro rules
  induction rules with
  | nil => intro st h; exact Or.inl h
  | cons r rules ih =>
    intro st h
    rw [List.foldl_cons] at h
    rcases ih _ h with hst | ⟨rule, p, c, hrule, hmem, hsw, hk⟩
    · rcases aliasStep_keys r k sources st hst with h1 | ⟨p, c, hmem, hsw, hk⟩
      · exact Or.inl h1
      · exact Or.inr ⟨r, p, c, List.mem_cons_self _ _, hmem, hsw, hk⟩
    · exact Or.inr ⟨rule, p, c, List.mem_cons_of_mem _ hrule, hmem, hsw, hk⟩

/-- A rule whose target matches no source path leaves the map untouched. -/
theorem aliasStep_no_match (rule : Str × Str)
    (sources : List (Str × Str))
    (h : ∀ pc ∈ sources, startswith pc.1 rule.2 = false) :
    ∀ st, aliasStep sources st rule = st := by
  induction sources with
  | nil => intro st; rfl
  | cons pc l ih =>
    intro st
    rw [aliasStep_cons]
    have hpc := h pc (List.mem_cons_self _ _)
    rw [if_neg (by simp [hpc])]
    exact ih (fun qc hqc => h qc (List.mem_cons_of_mem _ hqc)) st

/-- C1: For every source map and rule list, each rule `(alias, target)`
applied in order to each original `(path, content)` with `target` a prefix
of `path` leaves `alias + path[len(target):]` bound to `content` in the
result, unless that candidate was already a key when the rule was applied;
and every original entry is still present with its content. -/
theorem expand_alias_sources_adds_aliases (sources remaps : List (Str × Str))
    (hnd : keysNodup sources) :
    (∀ p c, alookup sources p = some c →
      alookup (expand_alias_sources sources remaps) p = some c) ∧
    (∀ i (hi : i < remaps.length) p c,
      (p, c) ∈ sources →
      startswith p (remaps.get ⟨i, hi⟩).2 = true →
      alookup (expand_alias_sources sources (remaps.take i))
        ((remaps.get ⟨i, hi⟩).1 ++ List.drop (remaps.get ⟨i, hi⟩).2.length p) = none →
      alookup (expand_alias_sources sources remaps)
        ((remaps.get ⟨i, hi⟩).1 ++ List.drop (remaps.get ⟨i, hi⟩).2.length p) = some c) := by
  constructor
  · intro p c h
    exact foldl_alias_persist sources remaps sources p c h
  · intro i hi p c hmem hsw habs
    have hsplit : remaps = remaps.take i ++ remaps.get ⟨i, hi⟩ :: remaps.drop (i + 1) := by
      conv_lhs => rw [← List.take_append_drop i remaps]
      rw [List.drop_eq_getElem_cons hi, List.get_eq_getElem]
    have hexp : expand_alias_sources sources remaps =
        (remaps.drop (i + 1)).foldl (aliasStep sources)
          (aliasStep sources (expand_alias_sources sources (remaps.take i))
            (remaps.get ⟨i, hi⟩)) := by
      conv_lhs => rw [hsplit]
      unfold expand_alias_sources
      rw [List.foldl_append, List.foldl_cons]
    rw [hexp]
    refine foldl_alias_persist sources _ _ _ _ ?_
    exact aliasStep_inserts (remaps.get ⟨i, hi⟩).1 (remaps.get ⟨i, hi⟩).2 p c sources
      (expand_alias_sources sources (remaps.take i)) hnd hmem hsw habs

/-- Witness for C1: scenario B, where the single rule duplicates the
chainlink source under its alias. -/
theorem expand_alias_sources_adds_aliases_witness :
    keysNodup w1Sources ∧
    alookup (expand_alias_sources w1Sources w1Remaps)
      (str "@chainlink/contracts/Token.sol") = some (str "CONTENT") := by
  constructor
  · decide
  · exact (expand_alias_sources_adds_aliases w1Sources w1Remaps (by decide)).2 0 (by decide)
      (str "lib/chainlink/contracts/Token.sol") (str "CONTENT")
      (by decide) (by decide) (by decide)

/-- C2: once a key is bound in the growing map — by the original sources or
by an earlier rule — no later rule ever rebinds it (first-writer-wins). -/
theorem expand_alias_sources_first_writer_wins
    (sources rules1 rules2 : List (Str × Str)) (k v : Str) :
    (alookup (expand_alias_sources sources rules1) k = some v →
      alookup (expand_alias_sources sources (rules1 ++ rules2)) k = some v) ∧
    (alookup sources k = some v →
      alookup (expand_alias_sources sources (rules1 ++ rules2)) k = some v) := by
  constructor
  · intro h
    unfold expand_alias_sources at h ⊢
    rw [List.foldl_append]
    exact foldl_alias_persist sources rules2 _ k v h
  · intro h
    exact foldl_alias_persist sources _ sources k v h

/-- Witness for C2: two rules collide on `@x/T.sol`; the first rule's
content survives the second. -/
theorem expand_alias_sources_first_writer_wins_witness :
    alookup (expand_alias_sources w2Sources w2R1) (str "@x/T.sol") = some (str "A") ∧
    alookup (expand_alias_sources w2Sources (w2R1 ++ w2R2)) (str "@x/T.sol")
      = some (str "A") :=
  ⟨by decide,
    (expand_alias_sources_first_writer_wins w2Sources w2R1 w2R2
      (str "@x/T.sol") (str "A")).1 (by decide)⟩

/-- C5: when no rule's target is a prefix of any source path, the expanded
map is exactly the input map — no key added, removed, or rebound. -/
theorem expand_alias_sources_no_match (sources remaps : List (Str × Str))
    (h : ∀ rule ∈ remaps, ∀ pc ∈ sources, startswith pc.1 rule.2 = false) :
    expand_alias_sources sources remaps = sources := by
  have hgen : ∀ (rules : List (Str × Str)),
      (∀ rule ∈ rules, ∀ pc ∈ sources, startswith pc.1 rule.2 = false) →
      ∀ st, rules.foldl (aliasStep sources) st = st := by
    intro rules
    induction rules with
    | nil => intro _ st; rfl
    | cons r rules ih =>
      intro hr st
      rw [List.foldl_cons,
        aliasStep_no_match r sources (fun pc hpc => hr r (List.mem_cons_self _ _) pc hpc) st]
      exact ih (fun rule hrule => hr rule (List.mem_cons_of_mem _ hrule)) st
  exact hgen remaps h sources

/-- Witness for C5: scenario A — `src/Pool.sol` does not start with
`lib/chainlink/`, so the map is unchanged. -/
theorem expand_alias_sources_no_match_witness :
    (∀ rule ∈ w1Remaps, ∀ pc ∈ w5Sources, startswith pc.1 rule.2 = false) ∧
    expand_alias_sources w5Sources w1Remaps = w5Sources :=
  ⟨by decide, expand_alias_sources_no_match w5Sources w1Remaps (by decide)⟩

/-- C9 (amended): rules are matched only against the original source map,
so every key of the expanded map is an original source path or
`alias + suffix` for at least one rule `(alias, target)` and original path
`target + suffix` — the decomposition need not be unique. -/
theorem expand_alias_sources_keys (sources remaps : List (Str × Str)) (k : Str)
    (h : (alookup (expand_alias_sources sources remaps) k).isSome = true) :
    (alookup sources k).isSome = true ∨
      ∃ rule p c, rule ∈ remaps ∧ (p, c) ∈ sources ∧
        startswith p rule.2 = true ∧ k = rule.1 ++ List.drop rule.2.length p :=
  foldl_alias_keys sources k remaps sources h

/-- Witness for C9: the synthesized key `@x/y/f` decomposes through the
rule list and original paths. -/
theorem expand_alias_sources_keys_witness :
    (alookup (expand_alias_sources cexSources cexRemaps) (str "@x/y/f")).isSome = true ∧
    ((alookup cexSources (str "@x/y/f")).isSome = true ∨
      ∃ rule p c, rule ∈ cexRemaps ∧ (p, c) ∈ cexSources ∧
        startswith p rule.2 = true ∧
        str "@x/y/f" = rule.1 ++ List.drop rule.2.length p) :=
  ⟨by decide, expand_alias_sources_keys cexSources cexRemaps (str "@x/y/f") (by decide)⟩

/-- Counterexample for C9 as stated: the key `@x/y/f` of the expanded map
is not an original path, yet it is `alias + suffix` for two different
(rule, original path) pairs — the decomposition is not unique. -/
theorem expand_alias_unique_decomposition_false :
    ¬ (∀ k : Str, (alookup (expand_alias_sources cexSources cexRemaps) k).isSome = true →
        (alookup cexSources k).isSome = true ∨
        ∃! rp : (Str × Str) × Str,
          rp.1 ∈ cexRemaps ∧ rp.2 ∈ cexSources.map Prod.fst ∧
          startswith rp.2 rp.1.2 = true ∧
          k = rp.1.1 ++ List.drop rp.1.2.length rp.2) := by
  intro h
  rcases h (str "@x/y/f") (by decide) with h1 | ⟨rp, hrp, huniq⟩
  · exact absurd h1 (by decide)
  · have hd1 := huniq ((str "@x/", str "lib1/"), str "lib1/y/f") (by decide)
    have hd2 := huniq ((str "@x/y/", str "lib2/"), str "lib2/f") (by decide)
    rw [← hd2] at hd1
    exact absurd hd1 (by decide)


/-- C3: the Artifact Loader yields the same metadata record whether the
artifact's `metadata` field holds the record directly as a JSON object or
holds its JSON-encoded string. -/
theorem load_artifact_metadata_forms (fields : List (Str × Json)) :
    load_artifact (dumps (Json.obj [(str "metadata", Json.obj fields)]))
      = some (Json.obj fields) ∧
    load_artifact (dumps (Json.obj [(str "metadata",
        Json.str (dumps (Json.obj fields)))]))
      = some (Json.obj fields) := by
  constructor
  · unfold load_artifact
    rw [loads_dumps]
    have hget : getItem (Json.obj [(str "metadata", Json.obj fields)]) (str "metadata")
        = some (Json.obj fields) := by
      simp [getItem, alookup]
    simp [hget]
  · unfold load_artifact
    rw [loads_dumps]
    have hget : getItem (Json.obj [(str "metadata",
        Json.str (dumps (Json.obj fields)))]) (str "metadata")
        = some (Json.str (dumps (Json.obj fields))) := by
      simp [getItem, alookup]
    simp [hget, loads_dumps]

theorem alookup_eq_none {β : Type} {l : List (Str × β)} {k : Str}
    (h : alookup l k = none) : ∀ kv ∈ l, kv.1 ≠ k := by
  induction l with
  | nil => intro kv hkv; simp at hkv
  | cons ab l ih =>
    obtain ⟨a, b⟩ := ab
    intro kv hkv
    by_cases hak : a = k
    · subst hak; simp [alookup] at h
    · rcases List.mem_cons.mp hkv with rfl | hm
      · exact hak
      · refine ih ?_ kv hm
        simpa [alookup, hak] using h

theorem eraseP_not_found {l : List (Str × Json)} {k : Str}
    (h : ∀ kv ∈ l, kv.1 ≠ k) :
    l.eraseP (fun kv => decide (kv.1 = k)) = l := by
  induction l with
  | nil => rfl
  | cons a l ih =>
    have ha : decide (a.1 = k) = false := by
      simp [h a (List.mem_cons_self _ _)]
    rw [List.eraseP_cons, ha]
    simp [ih (fun kv hkv => h kv (List.mem_cons_of_mem _ hkv))]

theorem eraseP_key_eq_filter {l : List (Str × Json)} {k : Str} (hnd : keysNodup l) :
    l.eraseP (fun kv => decide (kv.1 = k))
      = l.filter (fun kv => decide (¬ kv.1 = k)) := by
  induction l with
  | nil => rfl
  | cons ab l ih =>
    obtain ⟨a, b⟩ := ab
    have hnd2 : keysNodup l := by
      simp only [keysNodup, List.map_cons, List.nodup_cons] at hnd
      exact hnd.2
    have hnotin : a ∉ l.map Prod.fst := by
      simp only [keysNodup, List.map_cons, List.nodup_cons] at hnd
      exact hnd.1
    by_cases hak : a = k
    · subst hak
      have hd : decide ((a, b).1 = a) = true := by simp
      rw [List.eraseP_cons, hd, cond_true]
      have hfl : l.filter (fun kv => decide (¬ kv.1 = a)) = l := by
        rw [List.filter_eq_self]
        intro kv hkv
        simp only [decide_eq_true_eq]
        intro hc
        exact hnotin (List.mem_map.mpr ⟨kv, hkv, hc⟩)
      rw [List.filter_cons, if_neg (by simp)]
      exact hfl.symm
    · have hd : decide ((a, b).1 = k) = false := by simp [hak]
      rw [List.eraseP_cons, hd, cond_false, List.filter_cons]
      have hd2 : decide (¬ (a, b).1 = k) = true := by simp [hak]
      rw [hd2, if_pos rfl]
      simp [ih hnd2]

/-- C6: the Settings Sanitizer — a serialization-round-trip copy followed
by dropping `compilationTarget` — returns exactly the original record minus
that key, the identical record when the key is absent.  (In the value
semantics of the embedding, the proved round-trip identity
`loads (dumps v) = some v` is what makes the copy independent of the
original.) -/
theorem sanitize_settings_spec (settings : List (Str × Json)) (hnd : keysNodup settings) :
    sanitize_settings settings
      = settings.filter (fun kv => decide (¬ kv.1 = str "compilationTarget")) ∧
    (alookup settings (str "compilationTarget") = none →
      sanitize_settings settings = settings) := by
  have hcopy : sanitize_settings settings
      = settings.eraseP (fun kv => decide (kv.1 = str "compilationTarget")) := by
    unfold sanitize_settings
    rw [loads_dumps]
  constructor
  · rw [hcopy]
    exact eraseP_key_eq_filter hnd
  · intro habs
    rw [hcopy]
    exact eraseP_not_found (alookup_eq_none habs)

/-- Witness for C6: scenario C — the optimizer survives, the compilation
target is removed. -/
theorem sanitize_settings_spec_witness :
    keysNodup w6Settings ∧
    sanitize_settings w6Settings
      = [(str "optimizer", Json.obj [(str "enabled", Json.bool true)])] := by
  refine ⟨by decide, ?_⟩
  rw [(sanitize_settings_spec w6Settings (by decide)).1]
  rfl

/-- C10: the Remapping Parser truncates at the first `#` even inside a
quoted entry: the block `"a#b=lib/"` is cut down to the unterminated
entry `"a`, so the parse fails instead of returning the rule
`(a#b, lib/)`. -/
theorem parse_remappings_hash_truncation :
    extractEntries hashBlock = [str "\"a"] ∧
    parse_remappings (str "remappings = [\"a#b=lib/\"]") = none ∧
    parse_remappings (str "remappings = [\"a#b=lib/\"]")
      ≠ some [(str "a#b", str "lib/")] := by
  refine ⟨by decide, by decide, by decide⟩

/-- The loop of `read_sources` aborts at the first missing file with the
message naming that path. -/
theorem readSourcesGo_missing (fs : Str → Option Str) :
    ∀ (fields : List (Str × Json)), (∃ pc ∈ fields, fs pc.1 = none) →
      ∃ p, p ∈ fields.map Prod.fst ∧ fs p = none ∧
        readSourcesGo fs fields = Except.error (missingMsg p) := by
  intro fields
  induction fields with
  | nil => rintro ⟨pc, hmem, -⟩; simp at hmem
  | cons qd rest ih =>
    rintro ⟨pc, hmem, hnone⟩
    obtain ⟨q, d⟩ := qd
    cases hq : fs q with
    | none =>
      refine ⟨q, List.mem_map.mpr ⟨(q, d), List.mem_cons_self _ _, rfl⟩, hq, ?_⟩
      simp [readSourcesGo, hq]
    | some content =>
      have hpc : pc ∈ rest := by
        rcases List.mem_cons.mp hmem with rfl | h
        · rw [hq] at hnone; exact absurd hnone (by simp)
        · exact h
      obtain ⟨p, hp1, hp2, hp3⟩ := ih ⟨pc, hpc, hnone⟩
      refine ⟨p, List.mem_cons_of_mem _ hp1, hp2, ?_⟩
      simp [readSourcesGo, hq, hp3]

/-- C7: when any path of the metadata's sources mapping has no file, the
run aborts with the fatal missing-file error naming that path, before any
output is produced (the run's only output is the `Except.ok` payload). -/
theorem main_missing_source_aborts (artifactText : Str) (fs : Str → Option Str)
    (toml : Str) (metadata : Json) (fields : List (Str × Json))
    (hload : load_artifact artifactText = some metadata)
    (hsrc : getItem metadata (str "sources") = some (Json.obj fields))
    (hmiss : ∃ pc ∈ fields, fs pc.1 = none) :
    ∃ p, p ∈ fields.map Prod.fst ∧ fs p = none ∧
      main artifactText fs toml = Except.error (missingMsg p) := by
  obtain ⟨p, hp1, hp2, hp3⟩ := readSourcesGo_missing fs fields hmiss
  refine ⟨p, hp1, hp2, ?_⟩
  have hrs : read_sources fs metadata = Except.error (missingMsg p) := by
    unfold read_sources
    rw [hsrc]
    exact hp3
  unfold main
  rw [hload]
  simp only [hrs]

/-- Witness for C7: scenario D — the referenced `src/Pool.sol` is absent
from the file system, and the run aborts with the message naming it. -/
theorem main_missing_source_aborts_witness :
    ∃ p, p ∈ wSourcesFields.map Prod.fst ∧ wFsMissing p = none ∧
      main wArtifactText wFsMissing wToml = Except.error (missingMsg p) :=
  main_missing_source_aborts wArtifactText wFsMissing wToml wMetadata wSourcesFields
    (by rfl) (by rfl) ⟨(str "src/Pool.sol", Json.obj []), List.mem_cons_self _ _, rfl⟩

/-- C8: every successful run writes exactly
`{language, sources: {path: {content}}, settings}` — three keys in that
order, each source entry a single-field content record — serialized by the
`indent=2`, `ensure_ascii=False` pretty printer, whose escaping leaves
every printable character other than the quote and the backslash (hence
all non-ASCII) unescaped. -/
theorem main_output_shape (artifactText : Str) (fs : Str → Option Str)
    (toml : Str) (out : Str)
    (h : main artifactText fs toml = Except.ok out) :
    (∃ (lang : Json) (allSources : List (Str × Str)) (settingsFields : List (Str × Json)),
      out = dumpsIndent (Json.obj
        [(str "language", lang),
         (str "sources", Json.obj (allSources.map
            (fun pc => (pc.1, Json.obj [(str "content", Json.str pc.2)])))),
         (str "settings", Json.obj settingsFields)])) ∧
    (∀ c : Char, 32 ≤ c.toNat → c ≠ '"' → c ≠ '\\' → escapeChar c = [c]) := by
  constructor
  · unfold main at h
    cases hload : load_artifact artifactText with
    | none => rw [hload] at h; simp at h
    | some metadata =>
      rw [hload] at h
      cases hrs : read_sources fs metadata with
      | error e => simp only [hrs] at h; exact absurd h (by simp)
      | ok sources =>
        simp only [hrs] at h
        cases hpr : parse_remappings toml with
        | none => simp only [hpr] at h; exact absurd h (by simp)
        | some remaps =>
          simp only [hpr] at h
          cases hst : getItem metadata (str "settings") with
          | none => simp only [hst] at h; exact absurd h (by simp)
          | some sv =>
            simp only [hst] at h
            cases sv with
            | obj settingsFields =>
              cases hlang : getItem metadata (str "language") with
              | none => simp only [hlang] at h; exact absurd h (by simp)
              | some lang =>
                simp only [hlang] at h
                refine ⟨lang, expand_alias_sources sources remaps,
                  sanitize_settings settingsFields, ?_⟩
                simpa using h.symm
            | null => simp at h
            | bool b => simp at h
            | num n => simp at h
            | str s => simp at h
            | arr xs => simp at h
  · intro c h1 h2 h3
    have hn : c ≠ '\n' := by rintro rfl; revert h1; decide
    have ht : c ≠ '\t' := by rintro rfl; revert h1; decide
    have hr : c ≠ '\r' := by rintro rfl; revert h1; decide
    have h8 : ¬ c.toNat = 8 := by omega
    have h12 : ¬ c.toNat = 12 := by omega
    have h32 : ¬ c.toNat < 32 := by omega
    simp [escapeChar, h2, h3, hn, ht, hr, h8, h12, h32]

/-- Witness for C8: the concrete successful run produces the shaped,
pretty-printed document. -/
theorem main_output_shape_witness :
    (∃ (lang : Json) (allSources : List (Str × Str)) (settingsFields : List (Str × Json)),
      w8out = dumpsIndent (Json.obj
        [(str "language", lang),
         (str "sources", Json.obj (allSources.map
            (fun pc => (pc.1, Json.obj [(str "content", Json.str pc.2)])))),
         (str "settings", Json.obj settingsFields)])) ∧
    (∀ c : Char, 32 ≤ c.toNat → c ≠ '"' → c ≠ '\\' → escapeChar c = [c]) :=
  main_output_shape wArtifactText wFsPresent wToml w8out (by rfl)

end StdJson
